import Mathlib

/-
Verification of the core algorithms of the `ab_testing_platform` repository:
multiple-testing p-value corrections (`lib/corrections.py`), the frequentist
two-proportion z-test (`lib/frequentist.py` and the sequential branch of
`lib/frequentist/frequentist_ab_test.py`), and hash-based user bucketing with
aggregation (`lib/bucketing.py`).

Modelling conventions: Python floats are modelled as exact arithmetic (`ℚ` for
the purely rational correction pipelines, `ℝ` where `sqrt` appears); the
standard normal CDF `st.norm.cdf` is an opaque external routine and is passed
as a function parameter `Phi`; `hashlib.sha256`'s digest-as-integer is likewise
passed as a parameter; a float `NaN` p-value is modelled as `Option.none`
(comparisons against `NaN` are false, matching `none` never satisfying a
strict-less test); Python exceptions are modelled with `Option`.
-/

/-! ### Multiple testing corrections — `src/ab_testing_platform/lib/corrections.py`

`MultipleTestingCorrection` stores `p_values` (a numpy array, modelled as
`List ℚ`).  `np.argsort` is an external numpy primitive: it returns the list of
indices that sorts the array ascending; we model it with a stable insertion
sort on indices (for arrays without ties this is the unique sorting
permutation). -/

/-- Insert index `i` into an index list sorted by the values of `p`,
after all indices whose value is `≤ p[i]` (stable insertion). -/
def insert_index (p : List ℚ) (i : ℕ) : List ℕ → List ℕ
  | [] => [i]
  | j :: js => if p.getD i 0 < p.getD j 0 then i :: j :: js else j :: insert_index p i js

/-- Model of `np.argsort(self.p_values)`: the indices `0..m-1` sorted
ascending by their p-value (stable). -/
def argsort (p : List ℚ) : List ℕ :=
  (List.range p.length).foldl (fun acc i => insert_index p i acc) []

/-- The ascending 1-based rank numpy assigns by
`ranked_pvalues[sorted_p] = np.arange(1, m + 1)`: index `i` receives one plus
its position in the argsort order. -/
def rank_of (p : List ℚ) (i : ℕ) : ℕ := (argsort p).indexOf i + 1

/-- Model of `np.minimum.accumulate` continuing from a running minimum `m`. -/
def cummin_from (m : ℚ) : List ℚ → List ℚ
  | [] => []
  | x :: xs => min m x :: cummin_from (min m x) xs

/-- Model of `np.minimum.accumulate`: running minimum in array order. -/
def cummin : List ℚ → List ℚ
  | [] => []
  | x :: xs => x :: cummin_from x xs

/-- `MultipleTestingCorrection.bonferroni_correction`:
`np.minimum(self.p_values * len(self.p_values), 1.0)`. -/
def bonferroni_correction (p : List ℚ) : List ℚ :=
  p.map (fun x => min (x * p.length) 1)

/-- `MultipleTestingCorrection.benjamini_hochberg_correction`:
`corrected = p * m / ranked`; returns
`np.minimum.accumulate(np.minimum(corrected, 1.0))` (the accumulation runs in
original array order). -/
def benjamini_hochberg_correction (p : List ℚ) : List ℚ :=
  let corrected := (List.range p.length).map
    (fun i => p.getD i 0 * p.length / (rank_of p i : ℚ))
  cummin (corrected.map (fun x => min x 1))

/-- The Holm multiplier numpy assigns by
`ranked_pvalues[sorted_p] = np.arange(len(p), 0, -1)`: the k-th smallest
p-value (1-based k) receives `m - k + 1`. -/
def holm_multiplier (p : List ℚ) (i : ℕ) : ℕ := p.length - (argsort p).indexOf i

/-- `MultipleTestingCorrection.holm_correction`: `corrected = p * ranked`;
returns `np.minimum.accumulate(np.minimum(corrected, 1.0))` (again accumulated
in original array order). -/
def holm_correction (p : List ℚ) : List ℚ :=
  let corrected := (List.range p.length).map
    (fun i => p.getD i 0 * (holm_multiplier p i : ℚ))
  cummin (corrected.map (fun x => min x 1))

/-- Follows the spec's words, for comparison with the implementation: the
Benjamini-Hochberg adjustment.  `corrected_i = min(p_i * m / rank_i, 1)`, then
monotone non-increase is enforced from the largest rank down to rank 1
(cumulative minimum in descending-rank order), i.e. entry `i` becomes the
minimum of `corrected_j` over all `j` of rank at least `rank_i`. -/
def bh_spec (p : List ℚ) : List ℚ :=
  let m := p.length
  let corrected := fun i => min (p.getD i 0 * m / (rank_of p i : ℚ)) 1
  (List.range m).map (fun i =>
    (((List.range m).filter (fun j => rank_of p i ≤ rank_of p j)).map corrected).foldr
      min (corrected i))

/-- Follows the spec's words, for comparison with the implementation: the Holm
step-down adjustment.  The k-th smallest p-value is multiplied by `m - k + 1`,
monotonicity is enforced by a running maximum in ascending-rank order (entry
`i` becomes the maximum of the adjusted values over all `j` of rank at most
`rank_i`), and every result is capped at 1. -/
def holm_spec (p : List ℚ) : List ℚ :=
  let m := p.length
  let adjusted := fun i => p.getD i 0 * ((m - (rank_of p i - 1) : ℕ) : ℚ)
  (List.range m).map (fun i =>
    min ((((List.range m).filter (fun j => rank_of p j ≤ rank_of p i)).map adjusted).foldr
      max (adjusted i)) 1)

/-- C5: `bonferroni_correction` is the elementwise map
`p_i ↦ min(p_i * m, 1)`, it is order-independent (a permutation of the input
produces the corresponding permutation of the output), and it maps
`[0.01, 0.02, 0.03, 0.04]` to `[0.04, 0.08, 0.12, 0.16]`. -/
theorem bonferroni_correction_spec (l₁ l₂ : List ℚ) (hperm : l₁.Perm l₂) :
    (∀ i, i < l₁.length →
      (bonferroni_correction l₁).getD i 0 = min (l₁.getD i 0 * l₁.length) 1)
    ∧ (bonferroni_correction l₁).Perm (bonferroni_correction l₂)
    ∧ bonferroni_correction [1/100, 1/50, 3/100, 1/25] = [1/25, 2/25, 3/25, 4/25] := by
  refine ⟨?_, ?_, ?_⟩
  · intro i hi
    have hi' : i < (bonferroni_correction l₁).length := by
      simpa [bonferroni_correction] using hi
    rw [List.getD_eq_getElem _ _ hi', List.getD_eq_getElem _ _ hi]
    simp [bonferroni_correction]
  · have hlen : l₂.length = l₁.length := hperm.length_eq.symm
    unfold bonferroni_correction
    rw [hlen]
    exact hperm.map _
  · norm_num [bonferroni_correction]

/-- C5 witness: the theorem applied to the scenario list and the identity
permutation. -/
theorem bonferroni_correction_spec_witness :
    ([1/100, 1/50, 3/100, 1/25] : List ℚ).Perm [1/100, 1/50, 3/100, 1/25]
    ∧ ((∀ i, i < ([1/100, 1/50, 3/100, 1/25] : List ℚ).length →
        (bonferroni_correction [1/100, 1/50, 3/100, 1/25]).getD i 0
          = min (([1/100, 1/50, 3/100, 1/25] : List ℚ).getD i 0
              * ([1/100, 1/50, 3/100, 1/25] : List ℚ).length) 1)
      ∧ (bonferroni_correction [1/100, 1/50, 3/100, 1/25]).Perm
          (bonferroni_correction [1/100, 1/50, 3/100, 1/25])
      ∧ bonferroni_correction [1/100, 1/50, 3/100, 1/25] = [1/25, 2/25, 3/25, 4/25]) :=
  ⟨List.Perm.refl _, bonferroni_correction_spec _ _ (List.Perm.refl _)⟩

/-- C2: the claim fails on the code, and the code contradicts its own
documentation.  `benjamini_hochberg_correction` takes the cumulative minimum
in original array order, not in descending-rank order: on the (already
ascending) input `[0.01, 0.04]` the code returns `[0.02, 0.02]`, while the
Benjamini-Hochberg adjustment it documents (and which the spec describes,
matching the statsmodels `fdr_bh` oracle exposed by the same class) is
`[0.02, 0.04]`. -/
theorem benjamini_hochberg_correction_bug :
    benjamini_hochberg_correction [1/100, 1/25] = [1/50, 1/50]
    ∧ bh_spec [1/100, 1/25] = [1/50, 1/25]
    ∧ benjamini_hochberg_correction [1/100, 1/25] ≠ bh_spec [1/100, 1/25] := by
  have h1 : benjamini_hochberg_correction [1/100, 1/25] = [1/50, 1/50] := by
    norm_num [benjamini_hochberg_correction, argsort, insert_index, rank_of,
      cummin, cummin_from, List.range_succ]
  have h2 : bh_spec [1/100, 1/25] = [1/50, 1/25] := by
    norm_num [bh_spec, argsort, insert_index, rank_of, List.range_succ,
      List.filter]
  refine ⟨h1, h2, ?_⟩
  rw [h1, h2]
  norm_num

/-- C3: the claim fails on the code, and the code contradicts its own
documentation.  `holm_correction` applies the correct step-down multipliers
`m - k + 1` but then takes a cumulative minimum in original array order
instead of the running maximum over increasing rank: on the (already
ascending) input `[0.01, 0.02, 0.05]` the code returns `[0.03, 0.03, 0.03]`,
while the Holm adjustment it documents (and which the spec describes,
matching the statsmodels `holm` oracle exposed by the same class) is
`[0.03, 0.04, 0.05]`. -/
theorem holm_correction_bug :
    holm_correction [1/100, 1/50, 1/20] = [3/100, 3/100, 3/100]
    ∧ holm_spec [1/100, 1/50, 1/20] = [3/100, 1/25, 1/20]
    ∧ holm_correction [1/100, 1/50, 1/20] ≠ holm_spec [1/100, 1/50, 1/20] := by
  have h1 : holm_correction [1/100, 1/50, 1/20] = [3/100, 3/100, 3/100] := by
    norm_num [holm_correction, argsort, insert_index, rank_of, holm_multiplier,
      cummin, cummin_from, List.range_succ]
  have h2 : holm_spec [1/100, 1/50, 1/20] = [3/100, 1/25, 1/20] := by
    norm_num [holm_spec, argsort, insert_index, rank_of, List.range_succ,
      List.filter]
  refine ⟨h1, h2, ?_⟩
  rw [h1, h2]
  norm_num

/-! ### Frequentist two-proportion z-test — `src/ab_testing_platform/lib/frequentist.py`

`FrequentistABTest` is configured with `alpha` and `alt_hypothesis` and its
`conduct_experiment` computes the pooled two-proportion z statistic and a
p-value; `print_freq_results` reports the result as significant exactly when
`pvalue < alpha` (the packaged variant returns `significant: pvalue < alpha`
in its result dictionary).  The standard normal CDF `st.norm.cdf` is the
parameter `Phi`. -/

/-- The validated `alt_hypothesis` configuration values. -/
inductive Hypothesis where
  | one_tailed
  | two_tailed
deriving DecidableEq

open Classical in
/-- `FrequentistABTest.calculate_pvalue`: one-tailed returns
`1 - st.norm.cdf(np.abs(stat))` when `stat > 0` and `st.norm.cdf(stat)`
otherwise; two-tailed returns `2 * (1 - st.norm.cdf(np.abs(stat)))`. -/
noncomputable def calculate_pvalue (Phi : ℝ → ℝ) (hyp : Hypothesis) (stat : ℝ) : ℝ :=
  match hyp with
  | .one_tailed => if stat > 0 then 1 - Phi |stat| else Phi stat
  | .two_tailed => 2 * (1 - Phi |stat|)

/-- The fields of the reported frequentist result that the claims are about. -/
structure FreqResult where
  stat : ℝ
  pvalue : ℝ
  significant : Prop

/-- `FrequentistABTest.conduct_experiment` (batch mode): the proportions, the
pooled proportion, the pooled standard error
`sqrt(pooled * (1 - pooled) * (1/trials_null + 1/trials_alt))`, the statistic
`(prop_alt - prop_null) / se_pooled`, the p-value via `calculate_pvalue`, and
the `pvalue < alpha` significance report. -/
noncomputable def conduct_experiment (Phi : ℝ → ℝ) (alpha : ℝ) (hyp : Hypothesis)
    (success_null trials_null success_alt trials_alt : ℝ) : FreqResult :=
  let prop_null := success_null / trials_null
  let prop_alt := success_alt / trials_alt
  let pooled_prop := (success_null + success_alt) / (trials_null + trials_alt)
  let se_pooled :=
    Real.sqrt (pooled_prop * (1 - pooled_prop) * (1 / trials_null + 1 / trials_alt))
  let stat := (prop_alt - prop_null) / se_pooled
  let pvalue := calculate_pvalue Phi hyp stat
  { stat := stat, pvalue := pvalue, significant := pvalue < alpha }

/-- C1: with positive trial counts and a nonzero pooled standard error, the
statistic is `(sa/ta - sn/tn) / sqrt(pooled*(1-pooled)*(1/tn + 1/ta))` with
`pooled = (sn+sa)/(tn+ta)`; the p-value is `2*(1-Phi |z|)` two-tailed and
`1-Phi |z|` if `z > 0` else `Phi z` one-tailed; the result is reported
significant exactly when `pvalue < alpha`. -/
theorem conduct_experiment_correct (Phi : ℝ → ℝ) (alpha : ℝ) (hyp : Hypothesis)
    (sn tn sa ta : ℝ) (htn : 0 < tn) (hta : 0 < ta)
    (hse : Real.sqrt ((sn + sa) / (tn + ta) * (1 - (sn + sa) / (tn + ta))
        * (1 / tn + 1 / ta)) ≠ 0) :
    (conduct_experiment Phi alpha hyp sn tn sa ta).stat
      = (sa / ta - sn / tn) /
        Real.sqrt ((sn + sa) / (tn + ta) * (1 - (sn + sa) / (tn + ta))
          * (1 / tn + 1 / ta))
    ∧ (conduct_experiment Phi alpha .two_tailed sn tn sa ta).pvalue
      = 2 * (1 - Phi |(conduct_experiment Phi alpha .two_tailed sn tn sa ta).stat|)
    ∧ ((conduct_experiment Phi alpha .one_tailed sn tn sa ta).stat > 0 →
        (conduct_experiment Phi alpha .one_tailed sn tn sa ta).pvalue
          = 1 - Phi |(conduct_experiment Phi alpha .one_tailed sn tn sa ta).stat|)
    ∧ (¬ (conduct_experiment Phi alpha .one_tailed sn tn sa ta).stat > 0 →
        (conduct_experiment Phi alpha .one_tailed sn tn sa ta).pvalue
          = Phi (conduct_experiment Phi alpha .one_tailed sn tn sa ta).stat)
    ∧ ((conduct_experiment Phi alpha hyp sn tn sa ta).significant
        ↔ (conduct_experiment Phi alpha hyp sn tn sa ta).pvalue < alpha) := by
  refine ⟨rfl, rfl, ?_, ?_, Iff.rfl⟩
  · intro hpos
    simp only [conduct_experiment, calculate_pvalue] at hpos ⊢
    rw [if_pos hpos]
  · intro hneg
    simp only [conduct_experiment, calculate_pvalue] at hneg ⊢
    rw [if_neg hneg]

/-- C1 witness: the theorem applied at `Phi = 1/2`, `alpha = 1/20`,
two-tailed, `1/2` successes against `1/2` successes, where the pooled
standard error is `sqrt(1/4) ≠ 0`. -/
theorem conduct_experiment_correct_witness :
    ((0 : ℝ) < 2) ∧ ((0 : ℝ) < 2)
    ∧ Real.sqrt (((1 : ℝ) + 1) / (2 + 2) * (1 - (1 + 1) / (2 + 2)) * (1 / 2 + 1 / 2)) ≠ 0
    ∧ ((conduct_experiment (fun _ => 1/2) (1/20) .two_tailed 1 2 1 2).stat
        = ((1 : ℝ) / 2 - 1 / 2) /
          Real.sqrt (((1 : ℝ) + 1) / (2 + 2) * (1 - (1 + 1) / (2 + 2)) * (1 / 2 + 1 / 2))
      ∧ (conduct_experiment (fun _ => 1/2) (1/20) .two_tailed 1 2 1 2).pvalue
        = 2 * (1 - (fun (_ : ℝ) => (1:ℝ)/2)
            |(conduct_experiment (fun _ => 1/2) (1/20) .two_tailed 1 2 1 2).stat|)
      ∧ ((conduct_experiment (fun _ => 1/2) (1/20) .one_tailed 1 2 1 2).stat > 0 →
          (conduct_experiment (fun _ => 1/2) (1/20) .one_tailed 1 2 1 2).pvalue
            = 1 - (fun (_ : ℝ) => (1:ℝ)/2)
                |(conduct_experiment (fun _ => 1/2) (1/20) .one_tailed 1 2 1 2).stat|)
      ∧ (¬ (conduct_experiment (fun _ => 1/2) (1/20) .one_tailed 1 2 1 2).stat > 0 →
          (conduct_experiment (fun _ => 1/2) (1/20) .one_tailed 1 2 1 2).pvalue
            = (fun (_ : ℝ) => (1:ℝ)/2)
                (conduct_experiment (fun _ => 1/2) (1/20) .one_tailed 1 2 1 2).stat)
      ∧ ((conduct_experiment (fun _ => 1/2) (1/20) .two_tailed 1 2 1 2).significant
          ↔ (conduct_experiment (fun _ => 1/2) (1/20) .two_tailed 1 2 1 2).pvalue
              < 1/20)) := by
  have h2 : (0 : ℝ) < 2 := by norm_num
  have hse : Real.sqrt (((1 : ℝ) + 1) / (2 + 2) * (1 - (1 + 1) / (2 + 2))
      * (1 / 2 + 1 / 2)) ≠ 0 := by
    rw [Real.sqrt_ne_zero']
    norm_num
  exact ⟨h2, h2, hse,
    conduct_experiment_correct (fun _ => 1/2) (1/20) .two_tailed 1 2 1 2 h2 h2 hse⟩

/-- C7: swapping the null and alternative arguments negates the statistic and
leaves the two-tailed p-value unchanged. -/
theorem conduct_experiment_swap (Phi : ℝ → ℝ) (alpha : ℝ) (hyp : Hypothesis)
    (sn tn sa ta : ℝ) (htn : 0 < tn) (hta : 0 < ta)
    (hse : Real.sqrt ((sn + sa) / (tn + ta) * (1 - (sn + sa) / (tn + ta))
        * (1 / tn + 1 / ta)) ≠ 0) :
    (conduct_experiment Phi alpha hyp sa ta sn tn).stat
      = -(conduct_experiment Phi alpha hyp sn tn sa ta).stat
    ∧ (conduct_experiment Phi alpha .two_tailed sa ta sn tn).pvalue
      = (conduct_experiment Phi alpha .two_tailed sn tn sa ta).pvalue := by
  have harg : (sa + sn) / (ta + tn) * (1 - (sa + sn) / (ta + tn)) * (1 / ta + 1 / tn)
      = (sn + sa) / (tn + ta) * (1 - (sn + sa) / (tn + ta)) * (1 / tn + 1 / ta) := by
    ring
  have hstat : ∀ hyp' : Hypothesis,
      (conduct_experiment Phi alpha hyp' sa ta sn tn).stat
        = -(conduct_experiment Phi alpha hyp' sn tn sa ta).stat := by
    intro hyp'
    show (sn / tn - sa / ta) /
        Real.sqrt ((sa + sn) / (ta + tn) * (1 - (sa + sn) / (ta + tn)) * (1 / ta + 1 / tn))
      = -((sa / ta - sn / tn) /
        Real.sqrt ((sn + sa) / (tn + ta) * (1 - (sn + sa) / (tn + ta)) * (1 / tn + 1 / ta)))
    rw [harg, ← neg_div, neg_sub]
  refine ⟨hstat hyp, ?_⟩
  have hpv : (conduct_experiment Phi alpha .two_tailed sa ta sn tn).pvalue
      = 2 * (1 - Phi |(conduct_experiment Phi alpha .two_tailed sa ta sn tn).stat|) := rfl
  rw [hpv, hstat, abs_neg]
  rfl

/-- C7 witness: the theorem applied at `1/2` successes against `1/2`
successes, where the pooled standard error is `sqrt(1/4) ≠ 0`. -/
theorem conduct_experiment_swap_witness :
    ((0 : ℝ) < 2) ∧ ((0 : ℝ) < 2)
    ∧ Real.sqrt (((1 : ℝ) + 1) / (2 + 2) * (1 - (1 + 1) / (2 + 2)) * (1 / 2 + 1 / 2)) ≠ 0
    ∧ ((conduct_experiment (fun _ => 1/2) (1/20) .two_tailed 1 2 1 2).stat
        = -(conduct_experiment (fun _ => 1/2) (1/20) .two_tailed 1 2 1 2).stat
      ∧ (conduct_experiment (fun _ => 1/2) (1/20) .two_tailed 1 2 1 2).pvalue
        = (conduct_experiment (fun _ => 1/2) (1/20) .two_tailed 1 2 1 2).pvalue) := by
  have h2 : (0 : ℝ) < 2 := by norm_num
  have hse : Real.sqrt (((1 : ℝ) + 1) / (2 + 2) * (1 - (1 + 1) / (2 + 2))
      * (1 / 2 + 1 / 2)) ≠ 0 := by
    rw [Real.sqrt_ne_zero']
    norm_num
  exact ⟨h2, h2, hse,
    conduct_experiment_swap (fun _ => 1/2) (1/20) .two_tailed 1 2 1 2 h2 h2 hse⟩

/-- C9 counterexample: on the scenario inputs (300/1000 against 350/1000,
two-tailed, `alpha = 0.05`) the statistic computed by `conduct_experiment` is
strictly greater than 2.386 — it is not approximately 2.357 (it differs by
more than 0.01; the true value is ≈ 2.387). -/
theorem conduct_experiment_scenario_not_2357 :
    ¬ |(conduct_experiment (fun _ => 1/2) (1/20) .two_tailed 300 1000 350 1000).stat
        - 2357/1000| ≤ 1/100 := by
  have hstat : (conduct_experiment (fun _ => (1:ℝ)/2) (1/20) .two_tailed
      300 1000 350 1000).stat = (1/20) / Real.sqrt (351/800000) := by
    show ((350 : ℝ)/1000 - 300/1000) /
        Real.sqrt ((300 + 350) / (1000 + 1000) * (1 - (300 + 350) / (1000 + 1000))
          * (1/1000 + 1/1000)) = (1/20) / Real.sqrt (351/800000)
    norm_num
  have hs_pos : 0 < Real.sqrt ((351 : ℝ)/800000) := Real.sqrt_pos.mpr (by norm_num)
  have hub : Real.sqrt ((351 : ℝ)/800000) < 25/1193 := by
    rw [Real.sqrt_lt' (by norm_num : (0:ℝ) < 25/1193)]
    norm_num
  have h1 : (2386/1000 : ℝ) < (conduct_experiment (fun _ => (1:ℝ)/2) (1/20) .two_tailed
      300 1000 350 1000).stat := by
    rw [hstat, lt_div_iff₀ hs_pos]
    nlinarith [hub]
  intro habs
  have h2 := (abs_le.mp habs).2
  linarith

/-- C9 amended: on the scenario inputs the statistic lies strictly between
2.386 and 2.388 (so ≈ 2.387, not 2.357), the p-value is `2*(1 - Phi(z))`
(≈ 0.0170 for the standard normal CDF, not 0.0184), and the result is
significant at `alpha = 0.05` for any monotone CDF with `Phi(2.386) > 0.975`
(true of the standard normal CDF, for which `Phi(2.386) ≈ 0.9915`). -/
theorem conduct_experiment_scenario_amended (Phi : ℝ → ℝ) (hmono : Monotone Phi)
    (hPhi : (39/40 : ℝ) < Phi (2386/1000)) :
    2386/1000 < (conduct_experiment Phi (1/20) .two_tailed 300 1000 350 1000).stat
    ∧ (conduct_experiment Phi (1/20) .two_tailed 300 1000 350 1000).stat < 2388/1000
    ∧ (conduct_experiment Phi (1/20) .two_tailed 300 1000 350 1000).pvalue
        = 2 * (1 - Phi (conduct_experiment Phi (1/20) .two_tailed 300 1000 350 1000).stat)
    ∧ (conduct_experiment Phi (1/20) .two_tailed 300 1000 350 1000).significant := by
  have hstat : (conduct_experiment Phi (1/20) .two_tailed
      300 1000 350 1000).stat = (1/20) / Real.sqrt (351/800000) := by
    show ((350 : ℝ)/1000 - 300/1000) /
        Real.sqrt ((300 + 350) / (1000 + 1000) * (1 - (300 + 350) / (1000 + 1000))
          * (1/1000 + 1/1000)) = (1/20) / Real.sqrt (351/800000)
    norm_num
  have hs_pos : 0 < Real.sqrt ((351 : ℝ)/800000) := Real.sqrt_pos.mpr (by norm_num)
  have hub : Real.sqrt ((351 : ℝ)/800000) < 25/1193 := by
    rw [Real.sqrt_lt' (by norm_num : (0:ℝ) < 25/1193)]
    norm_num
  have hlb : (25/1194 : ℝ) < Real.sqrt ((351 : ℝ)/800000) := by
    rw [Real.lt_sqrt (by norm_num : (0:ℝ) ≤ 25/1194)]
    norm_num
  have h1 : (2386/1000 : ℝ) < (conduct_experiment Phi (1/20) .two_tailed
      300 1000 350 1000).stat := by
    rw [hstat, lt_div_iff₀ hs_pos]
    nlinarith [hub]
  have h2 : (conduct_experiment Phi (1/20) .two_tailed 300 1000 350 1000).stat
      < 2388/1000 := by
    rw [hstat, div_lt_iff₀ hs_pos]
    nlinarith [hlb]
  have hpos : 0 < (conduct_experiment Phi (1/20) .two_tailed 300 1000 350 1000).stat :=
    lt_trans (by norm_num) h1
  have hpv : (conduct_experiment Phi (1/20) .two_tailed 300 1000 350 1000).pvalue
      = 2 * (1 - Phi |(conduct_experiment Phi (1/20) .two_tailed
          300 1000 350 1000).stat|) := rfl
  have habs := abs_of_pos hpos
  refine ⟨h1, h2, by rw [hpv, habs], ?_⟩
  show (conduct_experiment Phi (1/20) .two_tailed 300 1000 350 1000).pvalue < 1/20
  rw [hpv, habs]
  have hm := hmono (le_of_lt h1)
  linarith

/-- C9 amended witness: the amended theorem applied to a concrete monotone
CDF stand-in that is constantly `0.99`. -/
theorem conduct_experiment_scenario_amended_witness :
    Monotone (fun _ : ℝ => (99/100 : ℝ))
    ∧ ((39/40 : ℝ) < (fun _ : ℝ => (99/100 : ℝ)) (2386/1000))
    ∧ (2386/1000 < (conduct_experiment (fun _ : ℝ => (99/100 : ℝ)) (1/20) .two_tailed
          300 1000 350 1000).stat
      ∧ (conduct_experiment (fun _ : ℝ => (99/100 : ℝ)) (1/20) .two_tailed
          300 1000 350 1000).stat < 2388/1000
      ∧ (conduct_experiment (fun _ : ℝ => (99/100 : ℝ)) (1/20) .two_tailed
          300 1000 350 1000).pvalue
          = 2 * (1 - (fun _ : ℝ => (99/100 : ℝ))
              (conduct_experiment (fun _ : ℝ => (99/100 : ℝ)) (1/20) .two_tailed
                300 1000 350 1000).stat)
      ∧ (conduct_experiment (fun _ : ℝ => (99/100 : ℝ)) (1/20) .two_tailed
          300 1000 350 1000).significant) :=
  ⟨monotone_const, by norm_num,
    conduct_experiment_scenario_amended _ monotone_const (by norm_num)⟩

/-! ### Sequential mode — `src/ab_testing_platform/lib/frequentist/frequentist_ab_test.py`

The packaged `FrequentistABTest.conduct_experiment(..., sequential=True,
stopping_threshold)` iterates `i` from 1 to `trials_null + trials_alt`,
computes interpolated success counts `int(i * (success / N))`, the running
pooled proportion `(sn_i + sa_i) / (2*i)`, the standard error
`sqrt(pooled_i * (1 - pooled_i) * (2/i))`, the statistic (`NaN` when the
standard error is 0) and p-value, stores the p-value, and breaks as soon as
`pvalue_i < stopping_threshold`.  A `NaN` p-value (here `none`) compares
false against the threshold, so it never stops the loop. -/

open Classical in
/-- Modelled from the spec: the sequential branch calls
`calculate_pvalue(stat_i, self.alt_hypothesis, self.alpha)` imported from
`ab_testing_platform/lib/frequentist/calculations.py`, a module absent from
the source tree.  Spec section 4.4 step 4 gives the formula: two-tailed
`2*(1-Phi(abs z))`; one-tailed `1-Phi(abs z)` if `z > 0` else `Phi(z)` (the
alpha argument does not enter the formula). -/
noncomputable def calculate_pvalue_seq (Phi : ℝ → ℝ) (hyp : Hypothesis)
    (alpha stat : ℝ) : ℝ :=
  match hyp with
  | .one_tailed => if stat > 0 then 1 - Phi |stat| else Phi stat
  | .two_tailed => 2 * (1 - Phi |stat|)

open Classical in
/-- The body of one iteration of the sequential loop at cumulative sample
index `i`: interpolated success counts (Python `int()` truncation of a
nonnegative float is the floor), running proportions, pooled proportion,
standard error, statistic and p-value; `none` models the `NaN` p-value
produced when `se_pooled_i == 0`. -/
noncomputable def step_pvalue (Phi : ℝ → ℝ) (hyp : Hypothesis) (alpha : ℝ)
    (success_null success_alt : ℕ) (N : ℕ) (i : ℕ) : Option ℝ :=
  let success_null_i : ℕ := ⌊(i : ℚ) * ((success_null : ℚ) / (N : ℚ))⌋₊
  let success_alt_i : ℕ := ⌊(i : ℚ) * ((success_alt : ℚ) / (N : ℚ))⌋₊
  let prop_null_i : ℝ := (success_null_i : ℝ) / (i : ℝ)
  let prop_alt_i : ℝ := (success_alt_i : ℝ) / (i : ℝ)
  let pooled_prop_i : ℝ := ((success_null_i : ℝ) + (success_alt_i : ℝ)) / (2 * (i : ℝ))
  let se_pooled_i : ℝ := Real.sqrt (pooled_prop_i * (1 - pooled_prop_i) * (2 / (i : ℝ)))
  if se_pooled_i = 0 then none
  else some (calculate_pvalue_seq Phi hyp alpha ((prop_alt_i - prop_null_i) / se_pooled_i))

/-- The stopping test `pvalue_i < stopping_threshold`: a stored p-value
strictly below the threshold (a `NaN`/`none` p-value never satisfies it,
as in float comparison). -/
def crosses (pv : ℕ → Option ℝ) (thr : ℝ) (i : ℕ) : Prop :=
  ∃ x, pv i = some x ∧ x < thr

open Classical in
/-- The sequential `for i in range(1, N+1)` loop, started at index `i`:
computes the step p-value, stores it, and breaks when it is strictly below
the threshold; otherwise continues to `i+1` until `N` is reached.  Returns
the stored p-value together with the index at which the loop stopped. -/
noncomputable def seq_loop (pv : ℕ → Option ℝ) (thr : ℝ) (N : ℕ) (i : ℕ) :
    Option ℝ × ℕ :=
  if h : crosses pv thr i ∨ N ≤ i then (pv i, i)
  else seq_loop pv thr N (i + 1)
termination_by N - i
decreasing_by
  push_neg at h
  obtain ⟨-, h2⟩ := h
  omega

/-- `conduct_experiment(..., sequential=True)`: the loop runs from index 1
over `N = trials_null + trials_alt` cumulative samples. -/
noncomputable def conduct_sequential (Phi : ℝ → ℝ) (hyp : Hypothesis)
    (alpha thr : ℝ) (sn tn sa ta : ℕ) : Option ℝ × ℕ :=
  seq_loop (step_pvalue Phi hyp alpha sn sa (tn + ta)) thr (tn + ta) 1

/-- The loop started at `1 ≤ i ≤ N` stops at the first index at or after `i`
whose p-value crosses the threshold (or at `N` when none does), and the
stored p-value is the one computed at the stopping index. -/
theorem seq_loop_spec (pv : ℕ → Option ℝ) (thr : ℝ) (N : ℕ) :
    ∀ k i, N - i ≤ k → 1 ≤ i → i ≤ N →
      i ≤ (seq_loop pv thr N i).2 ∧ (seq_loop pv thr N i).2 ≤ N
      ∧ (seq_loop pv thr N i).1 = pv (seq_loop pv thr N i).2
      ∧ (∀ j, i ≤ j → j < (seq_loop pv thr N i).2 → ¬ crosses pv thr j)
      ∧ (crosses pv thr (seq_loop pv thr N i).2 ∨ (seq_loop pv thr N i).2 = N) := by
  intro k
  induction k with
  | zero =>
    intro i hk h1 hN
    have hiN : i = N := by omega
    rw [seq_loop, dif_pos (Or.inr (le_of_eq hiN.symm))]
    refine ⟨le_refl i, hN, rfl, ?_, Or.inr hiN⟩
    intro j hj hj'
    omega
  | succ k ih =>
    intro i hk h1 hN
    by_cases hc : crosses pv thr i ∨ N ≤ i
    · rw [seq_loop, dif_pos hc]
      refine ⟨le_refl i, hN, rfl, ?_, ?_⟩
      · intro j hj hj'
        omega
      · rcases hc with hc | hc
        · exact Or.inl hc
        · exact Or.inr (le_antisymm hN hc)
    · rw [seq_loop, dif_neg hc]
      push_neg at hc
      obtain ⟨hnc, hiN⟩ := hc
      obtain ⟨r1, r2, r3, r4, r5⟩ := ih (i + 1) (by omega) (by omega) (by omega)
      refine ⟨by omega, r2, r3, ?_, r5⟩
      intro j hj hj'
      rcases eq_or_lt_of_le hj with rfl | hlt
      · exact hnc
      · exact r4 j (by omega) hj'

/-- C4: with positive trial counts, the sequential loop visits cumulative
indices 1, 2, ... in increasing order and stops at the first index whose
running p-value is strictly below the stopping threshold — every earlier
index fails the test, no later index is evaluated, and the stored p-value is
the one computed at the stopping index; when no index up to
`trials_null + trials_alt` crosses the threshold, the loop completes all
steps and the stored p-value is the one computed at the last index. -/
theorem conduct_sequential_first_crossing (Phi : ℝ → ℝ) (hyp : Hypothesis)
    (alpha thr : ℝ) (sn tn sa ta : ℕ) (htn : 0 < tn) (hta : 0 < ta) :
    1 ≤ (conduct_sequential Phi hyp alpha thr sn tn sa ta).2
    ∧ (conduct_sequential Phi hyp alpha thr sn tn sa ta).2 ≤ tn + ta
    ∧ (conduct_sequential Phi hyp alpha thr sn tn sa ta).1
        = step_pvalue Phi hyp alpha sn sa (tn + ta)
            (conduct_sequential Phi hyp alpha thr sn tn sa ta).2
    ∧ (∀ j, 1 ≤ j → j < (conduct_sequential Phi hyp alpha thr sn tn sa ta).2 →
        ¬ crosses (step_pvalue Phi hyp alpha sn sa (tn + ta)) thr j)
    ∧ (crosses (step_pvalue Phi hyp alpha sn sa (tn + ta)) thr
          (conduct_sequential Phi hyp alpha thr sn tn sa ta).2
        ∨ (conduct_sequential Phi hyp alpha thr sn tn sa ta).2 = tn + ta) :=
  seq_loop_spec (step_pvalue Phi hyp alpha sn sa (tn + ta)) thr (tn + ta)
    (tn + ta) 1 (by omega) (by omega) (by omega)

/-- C4 witness: the theorem applied at one trial per arm. -/
theorem conduct_sequential_first_crossing_witness :
    0 < 1
    ∧ (1 ≤ (conduct_sequential (fun _ => 1/2) .two_tailed (1/20) (1/20) 1 1 1 1).2
      ∧ (conduct_sequential (fun _ => 1/2) .two_tailed (1/20) (1/20) 1 1 1 1).2 ≤ 1 + 1
      ∧ (conduct_sequential (fun _ => 1/2) .two_tailed (1/20) (1/20) 1 1 1 1).1
          = step_pvalue (fun _ => 1/2) .two_tailed (1/20) 1 1 (1 + 1)
              (conduct_sequential (fun _ => 1/2) .two_tailed (1/20) (1/20) 1 1 1 1).2
      ∧ (∀ j, 1 ≤ j →
          j < (conduct_sequential (fun _ => 1/2) .two_tailed (1/20) (1/20) 1 1 1 1).2 →
          ¬ crosses (step_pvalue (fun _ => 1/2) .two_tailed (1/20) 1 1 (1 + 1)) (1/20) j)
      ∧ (crosses (step_pvalue (fun _ => 1/2) .two_tailed (1/20) 1 1 (1 + 1)) (1/20)
            (conduct_sequential (fun _ => 1/2) .two_tailed (1/20) (1/20) 1 1 1 1).2
          ∨ (conduct_sequential (fun _ => 1/2) .two_tailed (1/20) (1/20) 1 1 1 1).2
              = 1 + 1)) :=
  ⟨Nat.one_pos,
    conduct_sequential_first_crossing (fun _ => 1/2) .two_tailed (1/20) (1/20)
      1 1 1 1 Nat.one_pos Nat.one_pos⟩

/-! ### User bucketing and aggregation — `src/ab_testing_platform/lib/bucketing.py`

`UserBucketingABTest.bucket_user` hashes `str(user_id)` with `hashlib.sha256`,
reads the digest as an unsigned integer and reduces it modulo `bucket_count`;
the digest-as-integer map is the external parameter `sha256`.  `group_buckets`
is a Python dict from group name to a bucket `range(start, stop)`, modelled as
an association list in iteration order with half-open ranges; a user record is
a `(user_id, event)` pair.  `assign_to_group` linearly scans the dict and
raises `ValueError` (here `none`) when no range contains the user's bucket;
`run_experiment` builds `group_results` with a `success`/`trials` pair per
group and folds every user record into it. -/

/-- `UserBucketingABTest.bucket_user`: the sha256 digest of the user id as an
integer, modulo `bucket_count`. -/
def bucket_user (sha256 : String → ℕ) (user_id : String) (bucket_count : ℕ) : ℕ :=
  sha256 user_id % bucket_count

/-- The linear scan `for group, bucket_range in group_buckets.items()`:
returns the first group whose half-open range `[start, stop)` contains the
bucket, `none` when the scan falls through to `raise ValueError`. -/
def find_group (user_bucket : ℕ) : List (String × ℕ × ℕ) → Option String
  | [] => none
  | g :: rest =>
    if g.2.1 ≤ user_bucket ∧ user_bucket < g.2.2 then some g.1
    else find_group user_bucket rest

/-- `UserBucketingABTest.assign_to_group`: bucket the user (bucket_count is
its default 100) and scan the group map. -/
def assign_to_group (sha256 : String → ℕ) (user_id : String)
    (group_buckets : List (String × ℕ × ℕ)) : Option String :=
  find_group (bucket_user sha256 user_id 100) group_buckets

/-- The initial `group_results = {group: {"success": 0, "trials": 0} ...}`. -/
def init_group_results (group_buckets : List (String × ℕ × ℕ)) :
    List (String × ℤ × ℕ) :=
  group_buckets.map (fun g => (g.1, 0, 0))

/-- One aggregation step: `group_results[group]["trials"] += 1` and
`group_results[group]["success"] += user["event"]`. -/
def record_event (st : List (String × ℤ × ℕ)) (g : String) (ev : ℤ) :
    List (String × ℤ × ℕ) :=
  st.map (fun e => if e.1 = g then (e.1, e.2.1 + ev, e.2.2 + 1) else e)

/-- The aggregation loop of `UserBucketingABTest.run_experiment`: fold every
user record into `group_results`, assigning each user via `assign_to_group`;
an unassignable user propagates the `ValueError` (`none`). -/
def run_experiment_aggregation (sha256 : String → ℕ)
    (user_data : List (String × ℤ)) (group_buckets : List (String × ℕ × ℕ)) :
    Option (List (String × ℤ × ℕ)) :=
  user_data.foldlM
    (fun st u => (assign_to_group sha256 u.1 group_buckets).map
      (fun g => record_event st g u.2))
    (init_group_results group_buckets)

/-- The linear scan returns `none` exactly when no range in the map contains
the bucket. -/
theorem find_group_none_iff (b : ℕ) :
    ∀ gb : List (String × ℕ × ℕ),
      find_group b gb = none ↔ ∀ g ∈ gb, ¬ (g.2.1 ≤ b ∧ b < g.2.2) := by
  intro gb
  induction gb with
  | nil => simp [find_group]
  | cons g rest ih =>
    by_cases h : g.2.1 ≤ b ∧ b < g.2.2
    · rw [find_group, if_pos h]
      simp only [List.forall_mem_cons]
      constructor
      · intro habs
        exact absurd habs (by simp)
      · intro hall
        exact absurd h hall.1
    · rw [find_group, if_neg h]
      rw [ih]
      simp only [List.forall_mem_cons]
      exact ⟨fun hall => ⟨h, hall⟩, fun hall => hall.2⟩

/-- The linear scan returns `some name` exactly when the map decomposes as a
non-matching prefix followed by a first matching entry named `name`. -/
theorem find_group_some_iff (b : ℕ) (name : String) :
    ∀ gb : List (String × ℕ × ℕ),
      find_group b gb = some name ↔
        ∃ pre g suf, gb = pre ++ g :: suf ∧ g.1 = name
          ∧ (g.2.1 ≤ b ∧ b < g.2.2)
          ∧ ∀ g' ∈ pre, ¬ (g'.2.1 ≤ b ∧ b < g'.2.2) := by
  intro gb
  induction gb with
  | nil =>
    constructor
    · intro h
      exact absurd h (by simp [find_group])
    · rintro ⟨pre, g, suf, heq, -, -, -⟩
      have hlen := congrArg List.length heq
      simp at hlen
      omega
  | cons hd rest ih =>
    by_cases h : hd.2.1 ≤ b ∧ b < hd.2.2
    · rw [find_group, if_pos h]
      constructor
      · intro heq
        exact ⟨[], hd, rest, rfl, Option.some.inj heq, h, by simp⟩
      · rintro ⟨pre, g, suf, heq, hname, hcond, hpre⟩
        cases pre with
        | nil =>
          rw [List.nil_append, List.cons.injEq] at heq
          rw [← heq.1] at hname
          rw [hname]
        | cons p ps =>
          rw [List.cons_append, List.cons.injEq] at heq
          exact absurd (heq.1 ▸ h) (hpre p (by simp))
    · rw [find_group, if_neg h]
      rw [ih]
      constructor
      · rintro ⟨pre, g, suf, heq, hname, hcond, hpre⟩
        refine ⟨hd :: pre, g, suf, by rw [List.cons_append, heq], hname, hcond, ?_⟩
        rw [List.forall_mem_cons]
        exact ⟨h, hpre⟩
      · rintro ⟨pre, g, suf, heq, hname, hcond, hpre⟩
        cases pre with
        | nil =>
          rw [List.nil_append, List.cons.injEq] at heq
          exact absurd (heq.1 ▸ hcond) h
        | cons p ps =>
          rw [List.cons_append, List.cons.injEq] at heq
          refine ⟨ps, g, suf, heq.2, hname, hcond, ?_⟩
          intro g' hg'
          exact hpre g' (by simp [hg'])

/-- C8: `assign_to_group` buckets the user and returns the first group in map
iteration order whose half-open range contains that bucket; when no range
contains it, the scan falls through to the `ValueError` (`none`). -/
theorem assign_to_group_spec (sha256 : String → ℕ) (user_id : String)
    (gb : List (String × ℕ × ℕ)) :
    (∀ name, assign_to_group sha256 user_id gb = some name ↔
      ∃ pre g suf, gb = pre ++ g :: suf ∧ g.1 = name
        ∧ (g.2.1 ≤ bucket_user sha256 user_id 100
            ∧ bucket_user sha256 user_id 100 < g.2.2)
        ∧ ∀ g' ∈ pre, ¬ (g'.2.1 ≤ bucket_user sha256 user_id 100
            ∧ bucket_user sha256 user_id 100 < g'.2.2))
    ∧ (assign_to_group sha256 user_id gb = none ↔
        ∀ g ∈ gb, ¬ (g.2.1 ≤ bucket_user sha256 user_id 100
            ∧ bucket_user sha256 user_id 100 < g.2.2)) :=
  ⟨fun name => find_group_some_iff (bucket_user sha256 user_id 100) name gb,
    find_group_none_iff (bucket_user sha256 user_id 100) gb⟩

/-- Recording an event does not change the group names of the results. -/
theorem record_event_names (st : List (String × ℤ × ℕ)) (g : String) (ev : ℤ) :
    (record_event st g ev).map (fun e => e.1) = st.map (fun e => e.1) := by
  unfold record_event
  rw [List.map_map]
  apply List.map_congr_left
  intro a _
  by_cases h : a.1 = g
  · simp [h]
  · simp [h]

/-- Recording an event for a group absent from the results is a no-op. -/
theorem record_event_not_mem (st : List (String × ℤ × ℕ)) (g : String) (ev : ℤ)
    (h : g ∉ st.map (fun e => e.1)) : record_event st g ev = st := by
  induction st with
  | nil => rfl
  | cons e rest ih =>
    rw [List.map_cons, List.mem_cons] at h
    push_neg at h
    obtain ⟨h1, h2⟩ := h
    show (if e.1 = g then (e.1, e.2.1 + ev, e.2.2 + 1) else e) :: record_event rest g ev
        = e :: rest
    rw [if_neg (fun hh => h1 hh.symm), ih h2]

/-- Recording an event for a group that occurs exactly once adds the event to
the total success count and one to the total trial count. -/
theorem record_event_sums (st : List (String × ℤ × ℕ)) (g : String) (ev : ℤ)
    (hmem : g ∈ st.map (fun e => e.1)) (hnd : (st.map (fun e => e.1)).Nodup) :
    ((record_event st g ev).map (fun e => e.2.1)).sum
        = (st.map (fun e => e.2.1)).sum + ev
    ∧ ((record_event st g ev).map (fun e => e.2.2)).sum
        = (st.map (fun e => e.2.2)).sum + 1 := by
  induction st with
  | nil => simp at hmem
  | cons e rest ih =>
    rw [List.map_cons, List.mem_cons] at hmem
    rw [List.map_cons, List.nodup_cons] at hnd
    obtain ⟨hnd1, hnd2⟩ := hnd
    have hcons : record_event (e :: rest) g ev
        = (if e.1 = g then (e.1, e.2.1 + ev, e.2.2 + 1) else e) :: record_event rest g ev :=
      rfl
    rcases hmem with heq | hmem
    · have hrest : record_event rest g ev = rest :=
        record_event_not_mem rest g ev (by rwa [heq])
      rw [hcons, if_pos heq.symm, hrest]
      constructor
      · simp only [List.map_cons, List.sum_cons]
        ring
      · simp only [List.map_cons, List.sum_cons]
        ring
    · have hne : e.1 ≠ g := fun hh => hnd1 (by rwa [hh])
      obtain ⟨s1, s2⟩ := ih hmem hnd2
      rw [hcons, if_neg hne]
      constructor
      · simp only [List.map_cons, List.sum_cons, s1]
        ring
      · simp only [List.map_cons, List.sum_cons, s2]
        ring

/-- A successful linear scan returns one of the map's group names. -/
theorem find_group_mem (b : ℕ) :
    ∀ (gb : List (String × ℕ × ℕ)) (g : String),
      find_group b gb = some g → g ∈ gb.map (fun x => x.1) := by
  intro gb
  induction gb with
  | nil =>
    intro g h
    exact absurd h (by simp [find_group])
  | cons e rest ih =>
    intro g h
    by_cases hc : e.2.1 ≤ b ∧ b < e.2.2
    · rw [find_group, if_pos hc] at h
      rw [List.map_cons, List.mem_cons]
      exact Or.inl (Option.some.inj h).symm
    · rw [find_group, if_neg hc] at h
      rw [List.map_cons, List.mem_cons]
      exact Or.inr (ih g h)

/-- Folding user records into a state whose group names are those of the map
adds the records' outcomes to the total success count and their number to the
total trial count. -/
theorem aggregation_fold_sums (sha256 : String → ℕ) (gb : List (String × ℕ × ℕ))
    (hnd : (gb.map (fun g => g.1)).Nodup) :
    ∀ (ud : List (String × ℤ)) (st res : List (String × ℤ × ℕ)),
      st.map (fun e => e.1) = gb.map (fun g => g.1) →
      ud.foldlM (fun st u => (assign_to_group sha256 u.1 gb).map
        (fun g => record_event st g u.2)) st = some res →
      (res.map (fun e => e.2.1)).sum
          = (st.map (fun e => e.2.1)).sum + (ud.map (fun u => u.2)).sum
      ∧ (res.map (fun e => e.2.2)).sum
          = (st.map (fun e => e.2.2)).sum + ud.length := by
  intro ud
  induction ud with
  | nil =>
    intro st res hnames hfold
    simp only [List.foldlM_nil, Option.pure_def, Option.some.injEq] at hfold
    rw [← hfold]
    simp
  | cons u rest ih =>
    intro st res hnames hfold
    rw [List.foldlM_cons] at hfold
    cases hassign : assign_to_group sha256 u.1 gb with
    | none =>
      rw [hassign] at hfold
      simp at hfold
    | some g =>
      rw [hassign] at hfold
      simp only [Option.map_some', Option.some_bind] at hfold
      have hmem : g ∈ st.map (fun e => e.1) := by
        rw [hnames]
        exact find_group_mem (bucket_user sha256 u.1 100) gb g hassign
      have hnd' : (st.map (fun e => e.1)).Nodup := by rw [hnames]; exact hnd
      obtain ⟨q1, q2⟩ := record_event_sums st g u.2 hmem hnd'
      obtain ⟨r1, r2⟩ := ih (record_event st g u.2) res
        (by rw [record_event_names, hnames]) hfold
      constructor
      · rw [r1, q1, List.map_cons, List.sum_cons]
        ring
      · rw [r2, q2, List.length_cons]
        ring

/-- The initial group results carry the group names of the map and all-zero
counts. -/
theorem init_group_results_sums (gb : List (String × ℕ × ℕ)) :
    ((init_group_results gb).map (fun e => e.2.1)).sum = 0
    ∧ ((init_group_results gb).map (fun e => e.2.2)).sum = 0 := by
  induction gb with
  | nil => simp [init_group_results]
  | cons g rest ih => simpa [init_group_results] using ih

/-- C6: when every user record is assignable (the aggregation loop returns a
result rather than propagating the assignment error) and group names are
unique (they are Python dict keys), the group success counts sum to the sum
of all record outcomes and the group trial counts sum to the number of
records. -/
theorem run_experiment_aggregation_sums (sha256 : String → ℕ)
    (ud : List (String × ℤ)) (gb : List (String × ℕ × ℕ))
    (res : List (String × ℤ × ℕ))
    (hnd : (gb.map (fun g => g.1)).Nodup)
    (hev : ∀ u ∈ ud, u.2 = 0 ∨ u.2 = 1)
    (hrun : run_experiment_aggregation sha256 ud gb = some res) :
    (res.map (fun e => e.2.1)).sum = (ud.map (fun u => u.2)).sum
    ∧ (res.map (fun e => e.2.2)).sum = ud.length := by
  obtain ⟨s1, s2⟩ := aggregation_fold_sums sha256 gb hnd ud (init_group_results gb) res
    (by simp [init_group_results, List.map_map]) hrun
  obtain ⟨z1, z2⟩ := init_group_results_sums gb
  rw [s1, z1, zero_add, s2, z2, zero_add]
  exact ⟨rfl, rfl⟩

/-- C6 witness: a single record assigned to the single group `control`. -/
theorem run_experiment_aggregation_sums_witness :
    (([("control", 0, 100)] : List (String × ℕ × ℕ)).map (fun g => g.1)).Nodup
    ∧ (∀ u ∈ ([("u1", 1)] : List (String × ℤ)), u.2 = 0 ∨ u.2 = 1)
    ∧ run_experiment_aggregation (fun _ => 37) [("u1", 1)] [("control", 0, 100)]
        = some [("control", 1, 1)]
    ∧ ((([("control", 1, 1)] : List (String × ℤ × ℕ)).map (fun e => e.2.1)).sum
          = (([("u1", 1)] : List (String × ℤ)).map (fun u => u.2)).sum
      ∧ (([("control", 1, 1)] : List (String × ℤ × ℕ)).map (fun e => e.2.2)).sum
          = ([("u1", 1)] : List (String × ℤ)).length) := by
  have hnd : (([("control", 0, 100)] : List (String × ℕ × ℕ)).map (fun g => g.1)).Nodup := by
    simp
  have hev : ∀ u ∈ ([("u1", 1)] : List (String × ℤ)), u.2 = 0 ∨ u.2 = 1 := by
    intro u hu
    rw [List.mem_singleton] at hu
    rw [hu]
    exact Or.inr rfl
  have hrun : run_experiment_aggregation (fun _ => 37) [("u1", 1)] [("control", 0, 100)]
      = some [("control", 1, 1)] := rfl
  exact ⟨hnd, hev, hrun,
    run_experiment_aggregation_sums (fun _ => 37) [("u1", 1)] [("control", 0, 100)]
      [("control", 1, 1)] hnd hev hrun⟩

/-- Recording a 0/1 event preserves `0 ≤ success ≤ trials` for every group. -/
theorem record_event_inv (st : List (String × ℤ × ℕ)) (g : String) (ev : ℤ)
    (hev : 0 ≤ ev ∧ ev ≤ 1)
    (hinv : ∀ e ∈ st, 0 ≤ e.2.1 ∧ e.2.1 ≤ (e.2.2 : ℤ)) :
    ∀ e ∈ record_event st g ev, 0 ≤ e.2.1 ∧ e.2.1 ≤ (e.2.2 : ℤ) := by
  intro e he
  rw [record_event, List.mem_map] at he
  obtain ⟨a, ha, rfl⟩ := he
  obtain ⟨h1, h2⟩ := hinv a ha
  by_cases h : a.1 = g
  · rw [if_pos h]
    constructor
    · simp only
      omega
    · simp only
      push_cast
      omega
  · rw [if_neg h]
    exact ⟨h1, h2⟩

/-- Folding 0/1 user records preserves `0 ≤ success ≤ trials` for every
group through every step of the aggregation loop. -/
theorem aggregation_fold_inv (sha256 : String → ℕ) (gb : List (String × ℕ × ℕ)) :
    ∀ (ud : List (String × ℤ)) (st res : List (String × ℤ × ℕ)),
      (∀ u ∈ ud, u.2 = 0 ∨ u.2 = 1) →
      (∀ e ∈ st, 0 ≤ e.2.1 ∧ e.2.1 ≤ (e.2.2 : ℤ)) →
      ud.foldlM (fun st u => (assign_to_group sha256 u.1 gb).map
        (fun g => record_event st g u.2)) st = some res →
      ∀ e ∈ res, 0 ≤ e.2.1 ∧ e.2.1 ≤ (e.2.2 : ℤ) := by
  intro ud
  induction ud with
  | nil =>
    intro st res _ hinv hfold
    simp only [List.foldlM_nil, Option.pure_def, Option.some.injEq] at hfold
    rw [← hfold]
    exact hinv
  | cons u rest ih =>
    intro st res hev hinv hfold
    rw [List.foldlM_cons] at hfold
    cases hassign : assign_to_group sha256 u.1 gb with
    | none =>
      rw [hassign] at hfold
      simp at hfold
    | some g =>
      rw [hassign] at hfold
      simp only [Option.map_some', Option.some_bind] at hfold
      have hu : u.2 = 0 ∨ u.2 = 1 := hev u (by simp)
      refine ih (record_event st g u.2) res (fun v hv => hev v (by simp [hv])) ?_ hfold
      exact record_event_inv st g u.2 (by omega) hinv

/-- C10: after processing any prefix of a record list whose outcomes are all
0 or 1, every group aggregate satisfies `0 ≤ success_count ≤ trial_count`;
in particular the final aggregates do. -/
theorem run_experiment_aggregation_invariant (sha256 : String → ℕ)
    (ud pre : List (String × ℤ)) (gb : List (String × ℕ × ℕ))
    (st : List (String × ℤ × ℕ))
    (hev : ∀ u ∈ ud, u.2 = 0 ∨ u.2 = 1)
    (hpre : pre <+: ud)
    (hst : run_experiment_aggregation sha256 pre gb = some st) :
    ∀ e ∈ st, 0 ≤ e.2.1 ∧ e.2.1 ≤ (e.2.2 : ℤ) := by
  have hpev : ∀ u ∈ pre, u.2 = 0 ∨ u.2 = 1 := fun u hu => hev u (hpre.subset hu)
  refine aggregation_fold_inv sha256 gb pre (init_group_results gb) st hpev ?_ hst
  intro e he
  rw [init_group_results, List.mem_map] at he
  obtain ⟨a, -, rfl⟩ := he
  exact ⟨le_refl 0, by simp⟩

/-- C10 witness: the invariant theorem applied to a single 0/1 record and the
full list as its own prefix. -/
theorem run_experiment_aggregation_invariant_witness :
    (∀ u ∈ ([("u1", 1)] : List (String × ℤ)), u.2 = 0 ∨ u.2 = 1)
    ∧ ([("u1", 1)] : List (String × ℤ)) <+: [("u1", 1)]
    ∧ run_experiment_aggregation (fun _ => 37) [("u1", 1)] [("control", 0, 100)]
        = some [("control", 1, 1)]
    ∧ (∀ e ∈ ([("control", 1, 1)] : List (String × ℤ × ℕ)),
        0 ≤ e.2.1 ∧ e.2.1 ≤ (e.2.2 : ℤ)) := by
  have hev : ∀ u ∈ ([("u1", 1)] : List (String × ℤ)), u.2 = 0 ∨ u.2 = 1 := by
    intro u hu
    rw [List.mem_singleton] at hu
    rw [hu]
    exact Or.inr rfl
  have hpre : ([("u1", 1)] : List (String × ℤ)) <+: [("u1", 1)] := List.prefix_refl _
  have hrun : run_experiment_aggregation (fun _ => 37) [("u1", 1)] [("control", 0, 100)]
      = some [("control", 1, 1)] := rfl
  exact ⟨hev, hpre, hrun,
    run_experiment_aggregation_invariant (fun _ => 37) [("u1", 1)] [("u1", 1)]
      [("control", 0, 100)] [("control", 1, 1)] hev hpre hrun⟩
